import Mathlib

/-!
Verification of the eigenlog log-pipeline core against its specification.

The Rust sources are shallowly embedded: `u128` keys become `Nat` with explicit
bounds `< 2 ^ 128` where overflow matters, byte strings become `List Char`
(one `Char` per byte; all relevant bytes are ASCII), fallible operations return
`Option` or `Except`, and the sled store becomes an association list from tree
name to an ordered key/value list.
-/

namespace Eigenlog

/-! ## Severity levels (src/lib.rs, `enum Level`)

The Rust enum carries explicit discriminants `Trace = 4, Debug = 3, Info = 2,
Warn = 1, Error = 0`; the derived `PartialOrd`/`Ord` compare those
discriminants, so `Error < Warn < Info < Debug < Trace`. -/

inductive Level where
  | trace
  | debug
  | info
  | warn
  | error
deriving DecidableEq, Repr

/-- The explicit discriminant of the Rust `Level` enum; the spec calls this
the severity weight. -/
def Level.weight : Level → Nat
  | .trace => 4
  | .debug => 3
  | .info => 2
  | .warn => 1
  | .error => 0

/-- Rust `level_a <= level_b` via the derived `Ord` (discriminant comparison). -/
def Level.le (a b : Level) : Bool :=
  decide (a.weight ≤ b.weight)

/-- `impl Display for Level`: the lowercase name. -/
def Level.display : Level → List Char
  | .trace => "trace".toList
  | .debug => "debug".toList
  | .info => "info".toList
  | .warn => "warn".toList
  | .error => "error".toList

/-- `impl FromStr for Level`: lowercase the input, then match the five names. -/
def Level.fromStr (s : List Char) : Option Level :=
  let lower := s.map Char.toLower
  if lower = "trace".toList then some .trace
  else if lower = "debug".toList then some .debug
  else if lower = "info".toList then some .info
  else if lower = "warn".toList then some .warn
  else if lower = "error".toList then some .error
  else none

/-- `Level::all()` in source order. -/
def Level.all : List Level :=
  [.trace, .debug, .info, .warn, .error]

/-! ## Identity labels (src/lib.rs, `Host` and `App`)

`HOST_REGEX` is the anchored regex `^[A-Za-z0-9]+$`: at least one character,
every character an ASCII letter or digit. -/

/-- One character of the class `[A-Za-z0-9]`. -/
def isNameChar (c : Char) : Bool :=
  ('A' ≤ c && c ≤ 'Z') || ('a' ≤ c && c ≤ 'z') || ('0' ≤ c && c ≤ '9')

/-- `HOST_REGEX.is_match(s)` for the anchored regex `^[A-Za-z0-9]+$`. -/
def hostRegexIsMatch (s : List Char) : Bool :=
  !s.isEmpty && s.all isNameChar

structure Host where
  name : List Char
deriving DecidableEq, Repr

/-- `impl FromStr for Host`: accept exactly the regex matches. -/
def Host.fromStr (s : List Char) : Option Host :=
  if hostRegexIsMatch s then some ⟨s⟩ else none

/-- `impl Deserialize for Host`: deserialize a string, then re-parse it. -/
def Host.deserialize (s : List Char) : Option Host :=
  Host.fromStr s

structure App where
  name : List Char
deriving DecidableEq, Repr

/-- `impl FromStr for App`: same regex as `Host`. -/
def App.fromStr (s : List Char) : Option App :=
  if hostRegexIsMatch s then some ⟨s⟩ else none

/-- `impl Deserialize for App`: deserialize a string, then re-parse it. -/
def App.deserialize (s : List Char) : Option App :=
  App.fromStr s

/-! ## Partition (tree) names (src/lib.rs, `TreeName`) -/

structure TreeName where
  host : Host
  app : App
  level : Level
deriving DecidableEq, Repr

/-- `Level::get_tree_name`: the text `{host}-{app}-{level}`. -/
def Level.getTreeName (l : Level) (host : Host) (app : App) : List Char :=
  host.name ++ '-' :: app.name ++ '-' :: l.display

/-- `impl ToString for TreeName` delegates to `get_tree_name`. -/
def TreeName.toBytes (t : TreeName) : List Char :=
  t.level.getTreeName t.host t.app

/-- The `indicies` vector of `TreeName::from_bytes`: positions of the bytes
equal to `b'-'`, via enumerate / filter / map. -/
def dashIndices (bytes : List Char) : List Nat :=
  ((bytes.enum).filter (fun p => p.2 == '-')).map Prod.fst

/-- `TreeName::from_bytes`: require exactly two dash positions, then parse the
three segments with their own parsers. -/
def TreeName.fromBytes (bytes : List Char) : Option TreeName :=
  match dashIndices bytes with
  | [i, j] =>
    match Host.fromStr (bytes.take i),
          App.fromStr ((bytes.drop (i + 1)).take (j - (i + 1))),
          Level.fromStr (bytes.drop (j + 1)) with
    | some host, some app, some level => some ⟨host, app, level⟩
    | _, _, _ => none
  | _ => none

/-! ## Identifier and key codec (src/db.rs and src/server.rs, `ulid_floor`,
`ulid_ceiling`, `ivec_be_to_u128`; ulid crate `from_datetime` / `datetime`)

A ULID is a `u128`: the high 48 bits are the millisecond timestamp, the low
80 bits are the random suffix.  `to_be_bytes` is modelled index-wise. -/

/-- `u128::to_be_bytes`: byte `i` of the 16-byte big-endian form. -/
def toBeBytes (u : Nat) : List Nat :=
  (List.range 16).map (fun i => u / 2 ^ (8 * (15 - i)) % 256)

/-- `u128::from_be_bytes`. -/
def fromBeBytes (bytes : List Nat) : Nat :=
  bytes.foldl (fun acc b => acc * 256 + b) 0

/-- `base.iter_mut().skip(6)` and set each remaining byte to `v`: every byte
at position 6 or later becomes `v`. -/
def setLowBytes (v : Nat) (bytes : List Nat) : List Nat :=
  (bytes.enum).map (fun p => if 6 ≤ p.1 then v else p.2)

/-- `ulid_floor`: top 6 bytes preserved, low 10 bytes zeroed (`u8::MIN`). -/
def ulid_floor (u : Nat) : Nat :=
  fromBeBytes (setLowBytes 0 (toBeBytes u))

/-- `ulid_ceiling`: top 6 bytes preserved, low 10 bytes set to `u8::MAX`. -/
def ulid_ceiling (u : Nat) : Nat :=
  fromBeBytes (setLowBytes 255 (toBeBytes u))

/-- `ulid::Ulid::from_datetime`: millisecond timestamp (masked to 48 bits) in
the high bits, a random value (masked to 80 bits) in the low bits. -/
def from_datetime (ms rand : Nat) : Nat :=
  (ms % 2 ^ 48) * 2 ^ 80 + rand % 2 ^ 80

/-- `ulid::Ulid::datetime` as milliseconds since the epoch: the high 48 bits. -/
def timestampOf (u : Nat) : Nat :=
  u / 2 ^ 80

/-! ## Records and the store (src/lib.rs `LogData`; sled model)

The sled database is modelled as an association list from raw tree name to an
ordered list of `(key, value)` pairs, keys being the decoded 16-byte
big-endian `u128`s.  `open_tree` on a missing name yields the fresh empty
tree that sled would create. -/

structure LogData where
  message : List Char
  code_module : Option (List Char)
  code_line : Option Nat
  code_file : Option (List Char)
  tags : List (List Char × List Char)
deriving DecidableEq, Repr

abbrev Tree := List (Nat × LogData)

abbrev Db := List (List Char × Tree)

/-- `db.tree_names()`. -/
def treeNames (db : Db) : List (List Char) :=
  db.map Prod.fst

/-- `db.open_tree(name)` (creates the tree when absent). -/
def openTree (db : Db) (name : List Char) : Tree :=
  ((db.find? (fun t => t.1 == name)).map Prod.snd).getD []

/-- `tree.range(start..=end)`: the key-ordered entries inside the inclusive
byte range. -/
def treeRange (tree : Tree) (lo hi : Nat) : Tree :=
  tree.filter (fun kv => lo ≤ kv.1 && kv.1 ≤ hi)

/-! ## Query parameters and the query engine (src/lib.rs `QueryParams`;
src/db.rs and src/db/sled_impl.rs `query`; src/server.rs `query`)

`message_matches` / `message_not_matches` are regex source strings in Rust,
compiled once before the scan; the embedding carries the compiled regex as its
`is_match` predicate on the message, which is the only way the scan uses it. -/

structure QueryParams where
  max_log_level : Option Level
  start_timestamp : Option Nat
  end_timestamp : Option Nat
  host_contains : Option Host
  app_contains : Option App
  message_matches : Option (List Char → Bool)
  message_not_matches : Option (List Char → Bool)
  max_results : Option Nat

/-- `QueryParams::default()`: every field `None`. -/
def QueryParams.default : QueryParams :=
  ⟨none, none, none, none, none, none, none, none⟩

structure QueryResponse where
  host : Host
  app : App
  level : Level
  id : Nat
  data : LogData
deriving DecidableEq, Repr

/-- `filter_with_option`: when the filter is set, substring containment of the
filter inside the input; otherwise true. -/
def filter_with_option (input : List Char) (filt : Option (List Char)) : Bool :=
  match filt with
  | some f => decide (f <:+: input)
  | none => true

/-- The `relevant_trees` of `query` in src/db.rs and src/db/sled_impl.rs:
parseable names whose host and app pass the substring filters and whose level
is `<=` the maximum level (default `Info`). -/
def dbRelevantTrees (db : Db) (params : QueryParams) : List TreeName :=
  ((((treeNames db).filterMap TreeName.fromBytes).filter
      (fun t => filter_with_option t.host.name (params.host_contains.map Host.name))).filter
      (fun t => filter_with_option t.app.name (params.app_contains.map App.name))).filter
      (fun t => Level.le t.level (params.max_log_level.getD Level.info))

/-- The `relevant_trees` of `query` in src/server.rs: identical except that the
level comparison is `t.level >= max_log_level`. -/
def serverRelevantTrees (db : Db) (params : QueryParams) : List TreeName :=
  ((((treeNames db).filterMap TreeName.fromBytes).filter
      (fun t => filter_with_option t.host.name (params.host_contains.map Host.name))).filter
      (fun t => filter_with_option t.app.name (params.app_contains.map App.name))).filter
      (fun t => Level.le (params.max_log_level.getD Level.info) t.level)

/-- The `start` bound of `query` in src/db.rs: floor of `from_datetime` of
`start_timestamp`, defaulting to `u128::MIN`. -/
def dbStartBound (params : QueryParams) (rand : Nat) : Nat :=
  (((params.start_timestamp.map (fun t => from_datetime t rand)).map ulid_floor)).getD 0

/-- The `end` bound of `query` in src/db.rs: ceiling of `from_datetime` of
`end_timestamp`, defaulting to `u128::MAX`. -/
def dbEndBound (params : QueryParams) (rand : Nat) : Nat :=
  (((params.end_timestamp.map (fun t => from_datetime t rand)).map ulid_ceiling)).getD
    (2 ^ 128 - 1)

/-- The `start` bound of `query` in src/server.rs (same as src/db.rs). -/
def serverStartBound (params : QueryParams) (rand : Nat) : Nat :=
  (((params.start_timestamp.map (fun t => from_datetime t rand)).map ulid_floor)).getD 0

/-- The `end` bound of `query` in src/server.rs: computed from
`params.start_timestamp`, not `end_timestamp`. -/
def serverEndBound (params : QueryParams) (rand : Nat) : Nat :=
  (((params.start_timestamp.map (fun t => from_datetime t rand)).map ulid_ceiling)).getD
    (2 ^ 128 - 1)

/-- The inner scan loop of `query` (src/db.rs, src/db/sled_impl.rs) over the
in-range entries of one tree.  `rows` is the global counter; the
`max_results` check runs before each entry and breaks out of the tree. -/
def scanTree (params : QueryParams) (t : TreeName) (rows : Nat) :
    Tree → List QueryResponse × Nat
  | [] => ([], rows)
  | (key, value) :: rest =>
    if match params.max_results with
       | some max_results => decide (max_results < rows)
       | none => false then
      ([], rows)
    else
      let any_not_matches := (params.message_not_matches.map (fun n => n value.message)).getD false
      if any_not_matches then
        scanTree params t rows rest
      else
        let any_matches := (params.message_matches.map (fun m => m value.message)).getD true
        if !any_matches then
          scanTree params t rows rest
        else
          let res := scanTree params t (rows + 1) rest
          (⟨t.host, t.app, t.level, key, value⟩ :: res.1, res.2)

/-- The outer loop of `query` over the relevant trees, threading the global
`rows` counter. -/
def scanTrees (db : Db) (params : QueryParams) (lo hi : Nat) (rows : Nat) :
    List TreeName → List QueryResponse × Nat
  | [] => ([], rows)
  | t :: ts =>
    let res := scanTree params t rows (treeRange (openTree db t.toBytes) lo hi)
    let rest := scanTrees db params lo hi res.2 ts
    (res.1 ++ rest.1, rest.2)

/-- `query` of src/db.rs / src/db/sled_impl.rs (after regex compilation). -/
def dbQuery (db : Db) (params : QueryParams) (rand : Nat) : List QueryResponse :=
  (scanTrees db params (dbStartBound params rand) (dbEndBound params rand) 0
    (dbRelevantTrees db params)).1

/-! ## Partition inventory (src/db.rs and src/db/sled_impl.rs `info`,
`tree_name_to_info`; src/server.rs `info`) -/

structure LogTreeInfo where
  host : Host
  app : App
  level : Level
  min : Nat
  max : Nat
deriving DecidableEq, Repr

/-- `tree_name_to_info`: parse the name (failure carries the raw bytes, as
`Error::ParseTreeNameFromBytes` does), then `Ok(None)` for an empty tree,
otherwise the first and last keys give the min and max datetimes. -/
def tree_name_to_info (db : Db) (name : List Char) :
    Except (List Char) (Option LogTreeInfo) :=
  match TreeName.fromBytes name with
  | none => .error name
  | some parsed =>
    let tree := openTree db name
    if tree.isEmpty then .ok none
    else
      match tree.head?, tree.getLast? with
      | some first, some last =>
        .ok (some ⟨parsed.host, parsed.app, parsed.level,
          timestampOf first.1, timestampOf last.1⟩)
      | _, _ => .ok none

/-- Display of `Error::ParseTreeNameFromBytes`:
`Error parsing tree name from bytes: {name}`. -/
def parseErrDisplay (name : List Char) : List Char :=
  "Error parsing tree name from bytes: ".toList ++ name

/-- The message of the `info` error element for an empty tree:
`Tree {name} is empty`. -/
def emptyMsg (name : List Char) : List Char :=
  "Tree ".toList ++ name ++ " is empty".toList

/-- The message of the `info` error element for an unparseable name:
`Skipping invalid tree name {name}, due to: {error}`. -/
def skipMsg (name : List Char) (e : List Char) : List Char :=
  "Skipping invalid tree name ".toList ++ name ++ ", due to: ".toList ++
    parseErrDisplay e

/-- `info` of src/db.rs and src/db/sled_impl.rs: one element per tree name
other than `__sled__default`, successes and per-partition error elements. -/
def dbInfo (db : Db) : List (Except (List Char) LogTreeInfo) :=
  ((treeNames db).filter (fun n => !(n == "__sled__default".toList))).map
    (fun name =>
      match tree_name_to_info db name with
      | .ok (some info) => .ok info
      | .ok none => .error (emptyMsg name)
      | .error e => .error (skipMsg name e))

/-- The loop of `info` in src/server.rs: iterates every tree name, propagates
`tree_name_to_info` failures with `?`, and silently skips empty trees. -/
def serverInfoGo (db : Db) : List (List Char) → Except (List Char) (List LogTreeInfo)
  | [] => .ok []
  | name :: rest =>
    match tree_name_to_info db name with
    | .error e => .error e
    | .ok none => serverInfoGo db rest
    | .ok (some i) => (serverInfoGo db rest).map (fun l => i :: l)

/-- `info` of src/server.rs (no `__sled__default` filter, whole-call failure on
any unparseable name). -/
def serverInfo (db : Db) : Except (List Char) (List LogTreeInfo) :=
  serverInfoGo db (treeNames db)

/-! ## Partition detail (src/db.rs and src/db/sled_impl.rs `detail`)

`ulid_key.datetime().naive_local().date()`: `naive_local` on a
`DateTime<Utc>` is the naive UTC datetime (the UTC offset is zero), so the
grouping key is the UTC calendar date, modelled as the day number
`ms / 86400000`. -/

/-- The UTC calendar date (day number since the epoch) of a millisecond
timestamp. -/
def dateOfMs (ms : Nat) : Nat :=
  ms / 86400000

/-- `row_detail.entry(date).and_modify(|c| *c += 1).or_insert(1)` on the
histogram: bump the existing entry or append a fresh one. -/
def bumpDate : List (Nat × Nat) → Nat → List (Nat × Nat)
  | [], d => [(d, 1)]
  | (k, c) :: rest, d =>
    if k = d then (k, c + 1) :: rest else (k, c) :: bumpDate rest d

structure LogTreeDetail where
  host : Host
  app : App
  level : Level
  rows : Nat
  row_detail : List (Nat × Nat)
deriving DecidableEq, Repr

/-- `detail`: full scan of the partition, histogram by date of each key's
timestamp, `rows` the sum of the histogram values. -/
def detail (db : Db) (h : Host) (app : App) (level : Level) : LogTreeDetail :=
  let tree := openTree db (level.getTreeName h app)
  let row_detail := tree.foldl (fun m row => bumpDate m (dateOfMs (timestampOf row.1))) []
  ⟨h, app, level, (row_detail.map Prod.snd).sum, row_detail⟩

/-- Histogram lookup (BTreeMap `get`, defaulting to 0 for the theorems). -/
def histCount (m : List (Nat × Nat)) (d : Nat) : Nat :=
  (((m.find? (fun p => p.1 == d))).map Prod.snd).getD 0

/-! ## Subscriber cache (src/subscriber.rs `CacheLimit`) -/

structure CacheLimit where
  error : Nat
  warn : Nat
  info : Nat
  debug : Nat
  trace : Nat
deriving DecidableEq, Repr

/-- `CacheLimit::get_limit`. -/
def CacheLimit.get_limit (cl : CacheLimit) : Level → Nat
  | .trace => cl.trace
  | .debug => cl.debug
  | .info => cl.info
  | .warn => cl.warn
  | .error => cl.error

/-- The shipper cache: `HashMap<log::Level, BTreeMap<Ulid, LogData>>`,
modelled as an association list from level to the batch entries. -/
abbrev Cache := List (Level × List (Nat × LogData))

/-- `cache.get(&level)`. -/
def cacheGet (c : Cache) (l : Level) : Option (List (Nat × LogData)) :=
  (c.find? (fun p => p.1 == l)).map Prod.snd

/-- `CacheLimit::should_send` (src/subscriber.rs lines 44-52): the configured
limit is at most the current batch length plus one.  It takes no clock and no
timeout. -/
def CacheLimit.should_send (cl : CacheLimit) (level : Level) (cache : Cache) : Bool :=
  decide (cl.get_limit level ≤ ((cacheGet cache level).map List.length).getD 0 + 1)

/-- `CacheLimit::default()`: `{error: 1, warn: 1, info: 10, debug: 100,
trace: 100}`. -/
def CacheLimit.default : CacheLimit :=
  ⟨1, 1, 10, 100, 100⟩

/-- Modelled from the spec: the claimed eligibility predicate, with the
age-based clause (`oldest entry's age exceeds cache_timeout`, default 30s)
that has no counterpart in `CacheLimit::should_send` of src/subscriber.rs.
The oldest entry is the one with the smallest ULID key (keys are
time-ordered); its age is measured against the wall clock `nowMs`. -/
def specEligible (cl : CacheLimit) (cacheTimeoutMs : Nat) (level : Level)
    (cache : Cache) (nowMs : Nat) : Bool :=
  let batch := (cacheGet cache level).getD []
  decide (cl.get_limit level ≤ batch.length) ||
    (match (batch.map Prod.fst).min? with
     | some oldest => decide (cacheTimeoutMs < nowMs - timestampOf oldest)
     | none => false)

/-! ## The remote data shipper as a state machine
(src/subscriber.rs `DataSender::run`)

One loop iteration handles exactly one of: a received record, a flush
request, or the completion of one in-flight `send_batch` future from the
`FuturesUnordered` set.  The embedding replays a serialized list of such
events and records the externally visible actions in order. -/

inductive SubEvent where
  | record (level : Level) (data : LogData)
  | flushReq
  | taskDone
deriving DecidableEq, Repr

inductive SubAction where
  /-- `tasks.push(send_batch(...))`: a batch handed to the sink, not yet sent. -/
  | enqueuedSend (level : Level) (batch : List (Nat × LogData))
  /-- `sender.send(())`: the flush reply. -/
  | flushReply
  /-- One `send_batch` future completed: the batch reached the sink. -/
  | sendCompleted (level : Level) (batch : List (Nat × LogData))
deriving DecidableEq, Repr

def SubAction.isCompleted : SubAction → Bool
  | .sendCompleted _ _ => true
  | _ => false

def SubAction.isReply : SubAction → Bool
  | .flushReply => true
  | _ => false

structure SenderState where
  cache : Cache
  tasks : List (Level × List (Nat × LogData))
  nextId : Nat
deriving DecidableEq, Repr

/-- One iteration of the `tokio::select!` loop in `DataSender::run`:

* new record: only when `should_send` holds is the cached batch removed, the
  record added with a fresh ID, and a send enqueued — otherwise the record is
  discarded (the branch never inserts into the cache);
* flush request: every cached batch is drained into a send, then the reply is
  sent immediately;
* task completion: one in-flight send finishes. -/
def senderStep (cl : CacheLimit) (st : SenderState) :
    SubEvent → SenderState × List SubAction
  | .record level data =>
    if cl.should_send level st.cache then
      let batch := ((cacheGet st.cache level).getD []) ++ [(st.nextId, data)]
      let cache := st.cache.filter (fun p => !(p.1 == level))
      (⟨cache, st.tasks ++ [(level, batch)], st.nextId + 1⟩,
        [.enqueuedSend level batch])
    else
      (st, [])
  | .flushReq =>
    (⟨[], st.tasks ++ st.cache, st.nextId⟩,
      (st.cache.map (fun p => SubAction.enqueuedSend p.1 p.2)) ++ [.flushReply])
  | .taskDone =>
    match st.tasks with
    | [] => (st, [])
    | t :: rest => (⟨st.cache, rest, st.nextId⟩, [.sendCompleted t.1 t.2])

/-- Replay a serialized event list through `senderStep`, concatenating the
emitted actions. -/
def senderRun (cl : CacheLimit) (st : SenderState) :
    List SubEvent → SenderState × List SubAction
  | [] => (st, [])
  | e :: es =>
    let step := senderStep cl st e
    let rest := senderRun cl step.1 es
    (rest.1, step.2 ++ rest.2)

/-! ## Concrete fixtures used by closed evaluation theorems and witnesses -/

/-- A one-message record. -/
def exLogData : LogData :=
  ⟨"m".toList, none, none, none, []⟩

/-- A store with an `error` partition and a `trace` partition for host `h`,
app `a`. -/
def exQueryDb : Db :=
  [("h-a-error".toList, [(1, exLogData)]),
   ("h-a-trace".toList, [(2, exLogData)])]

/-- A store with one valid non-empty partition, one valid empty partition, one
malformed name, and sled's internal default tree. -/
def exInfoDb : Db :=
  [("h-a-info".toList, [(2 ^ 80 * 3, exLogData)]),
   ("h-a-warn".toList, []),
   ("foo_bar".toList, []),
   ("__sled__default".toList, [])]

/-- Query params requesting only an end timestamp of 5000 ms. -/
def exParamsEndOnly : QueryParams :=
  ⟨none, none, some 5000, none, none, none, none, none⟩

/-- Query params requesting only a start timestamp of 3000 ms. -/
def exParamsStartOnly : QueryParams :=
  ⟨none, some 3000, none, none, none, none, none, none⟩

/-- A cache holding a single Info entry whose ULID key has timestamp 0. -/
def exStaleCache : Cache :=
  [(Level.info, [(0, exLogData)])]

instance : DecidableEq (Except (List Char) LogTreeInfo) := fun a b =>
  match a, b with
  | .ok x, .ok y => decidable_of_iff (x = y) (by simp)
  | .error x, .error y => decidable_of_iff (x = y) (by simp)
  | .ok _, .error _ => isFalse (by simp)
  | .error _, .ok _ => isFalse (by simp)

instance : DecidableEq (Except (List Char) (List LogTreeInfo)) := fun a b =>
  match a, b with
  | .ok x, .ok y => decidable_of_iff (x = y) (by simp)
  | .error x, .error y => decidable_of_iff (x = y) (by simp)
  | .ok _, .error _ => isFalse (by simp)
  | .error _, .ok _ => isFalse (by simp)

/-! ## C1 — partition retention of the query -/

/-- C1: the claim holds for `query` in src/db.rs and src/db/sled_impl.rs
(levels with weight at most the default Info weight are retained, so the
`error` partition is scanned and the `trace` partition is not), but `query`
in src/server.rs reverses the comparison: on the same store and a default
query it scans exactly the `trace` partition and drops the `error`
partition. -/
theorem c1_level_filter_evaluation :
    dbRelevantTrees exQueryDb QueryParams.default =
      [⟨⟨"h".toList⟩, ⟨"a".toList⟩, .error⟩] ∧
    serverRelevantTrees exQueryDb QueryParams.default =
      [⟨⟨"h".toList⟩, ⟨"a".toList⟩, .trace⟩] ∧
    Level.le .error .info = true ∧ Level.le .warn .info = true ∧
    Level.le .info .info = true ∧ Level.le .debug .info = false ∧
    Level.le .trace .info = false := by
  decide

/-! ## C2 — key bounds of the query scan -/

/-- C2: in src/db.rs the lower bound is `floor(from_datetime(start))` or the
all-zero key and the upper bound is `ceiling(from_datetime(end))` or the
all-0xFF key (`2 ^ 128 - 1`), as claimed; but in src/server.rs the upper
bound is computed from `start_timestamp`: with only `end_timestamp = 5000`
set it stays `0xFF^16`, and with only `start_timestamp = 3000` set it becomes
`ceiling(from_datetime(3000))`. -/
theorem c2_bounds_evaluation :
    dbStartBound exParamsEndOnly 7 = 0 ∧
    dbEndBound exParamsEndOnly 7 = ulid_ceiling (from_datetime 5000 7) ∧
    dbEndBound exParamsEndOnly 7 = 5000 * 2 ^ 80 + (2 ^ 80 - 1) ∧
    dbStartBound exParamsStartOnly 7 = ulid_floor (from_datetime 3000 7) ∧
    dbStartBound exParamsStartOnly 7 = 3000 * 2 ^ 80 ∧
    dbEndBound exParamsStartOnly 7 = 2 ^ 128 - 1 ∧
    serverEndBound exParamsEndOnly 7 = 2 ^ 128 - 1 ∧
    ¬ serverEndBound exParamsEndOnly 7 = ulid_ceiling (from_datetime 5000 7) ∧
    serverEndBound exParamsStartOnly 7 = ulid_ceiling (from_datetime 3000 7) := by
  decide

/-! ## C3 — per-partition degradation of `info` -/

/-- C3: `info` in src/db.rs and src/db/sled_impl.rs returns one element per
non-internal tree name — a success for the valid non-empty partition, an
error element saying the empty partition is empty, and an error element
stating the reason for the unparseable name — while `info` in src/server.rs
fails the whole call on the first unparseable name. -/
theorem c3_info_evaluation :
    dbInfo exInfoDb =
      [.ok ⟨⟨"h".toList⟩, ⟨"a".toList⟩, .info, 3, 3⟩,
       .error ("Tree h-a-warn is empty".toList),
       .error ("Skipping invalid tree name foo_bar, due to: Error parsing tree name from bytes: foo_bar".toList)] ∧
    (dbInfo exInfoDb).length =
      ((treeNames exInfoDb).filter (fun n => !(n == "__sled__default".toList))).length ∧
    serverInfo exInfoDb = .error ("foo_bar".toList) := by
  decide

/-! ## C5 — batch ship-eligibility -/

/-- C5 counterexample: with the default limits, a batch of one Info entry
whose oldest entry is 31 seconds old is eligible under the claimed predicate
(the age clause fires), yet `CacheLimit::should_send` — the only eligibility
test in src/subscriber.rs, which consults no clock — returns false. -/
theorem c5_counterexample :
    CacheLimit.default.should_send .info exStaleCache = false ∧
    specEligible CacheLimit.default 30000 .info exStaleCache 31000 = true := by
  decide

/-- C5 as amended: a batch for severity `s` is eligible exactly when the
configured limit for `s` is at most the current batch length plus one (the
incoming record counts toward the threshold); there is no age-based clause
and no cache timeout.  The default limits are Error 1, Warn 1, Info 10,
Debug 100, Trace 100. -/
theorem c5_eligibility (cl : CacheLimit) (level : Level) (cache : Cache) :
    (cl.should_send level cache = true ↔
      cl.get_limit level ≤ ((cacheGet cache level).map List.length).getD 0 + 1) ∧
    CacheLimit.default.get_limit .error = 1 ∧
    CacheLimit.default.get_limit .warn = 1 ∧
    CacheLimit.default.get_limit .info = 10 ∧
    CacheLimit.default.get_limit .debug = 100 ∧
    CacheLimit.default.get_limit .trace = 100 := by
  refine ⟨?_, rfl, rfl, rfl, rfl, rfl⟩
  simp [CacheLimit.should_send]

/-! ## C6 — the flush barrier -/

/-- C6 counterexample: replaying `DataSender::run` on concrete event lists.
An Error record accepted before a flush request has only been enqueued — not
delivered — when the flush reply is emitted: the reply is the second action
and the send completion the third, so no completion precedes the reply.  An
Info record (below its limit of 10) is discarded on arrival — the record
branch never inserts into the cache — so it is never delivered at all: the
run emits only the flush reply and ends with an empty cache and no pending
send. -/
theorem c6_counterexample :
    (senderRun CacheLimit.default ⟨[], [], 0⟩
        [.record .error exLogData, .flushReq, .taskDone]).2 =
      [.enqueuedSend .error [(0, exLogData)], .flushReply,
       .sendCompleted .error [(0, exLogData)]] ∧
    (((senderRun CacheLimit.default ⟨[], [], 0⟩
        [.record .error exLogData, .flushReq, .taskDone]).2.takeWhile
          (fun a => !a.isReply)).all (fun a => !a.isCompleted)) = true ∧
    ((senderRun CacheLimit.default ⟨[], [], 0⟩
        [.record .error exLogData, .flushReq, .taskDone]).2.any
          (fun a => a.isCompleted)) = true ∧
    senderRun CacheLimit.default ⟨[], [], 0⟩
        [.record .info exLogData, .flushReq, .taskDone] =
      (⟨[], [], 0⟩, [.flushReply]) := by
  decide

/-- Processing any record or flush event emits no send completion. -/
lemma senderStep_no_complete (cl : CacheLimit) (st : SenderState)
    (e : SubEvent) (he : e ≠ SubEvent.taskDone) :
    ((senderStep cl st e).2.all (fun a => !a.isCompleted)) = true := by
  cases e with
  | record lv d =>
    by_cases hss : cl.should_send lv st.cache = true
    · simp [senderStep, hss, SubAction.isCompleted]
    · simp [senderStep, hss]
  | flushReq =>
    have key : ∀ (l : List (Level × List (Nat × LogData))),
        ((l.map (fun p => SubAction.enqueuedSend p.1 p.2) ++ [SubAction.flushReply]).all
          (fun a => !a.isCompleted)) = true := by
      intro l
      induction l with
      | nil => rfl
      | cons p ps ih =>
        rw [List.map_cons, List.cons_append, List.all_cons, ih]
        rfl
    exact key st.cache
  | taskDone => exact absurd rfl he

/-- A run containing no task-completion event emits no send completion. -/
lemma senderRun_no_complete (cl : CacheLimit) (st : SenderState)
    (tr : List SubEvent) (hnd : ∀ e ∈ tr, e ≠ SubEvent.taskDone) :
    ((senderRun cl st tr).2.all (fun a => !a.isCompleted)) = true := by
  induction tr generalizing st with
  | nil => rfl
  | cons e es ih =>
    have he : e ≠ SubEvent.taskDone := hnd e (List.mem_cons_self e es)
    have hes : ∀ x ∈ es, x ≠ SubEvent.taskDone :=
      fun x hx => hnd x (List.mem_cons_of_mem e hx)
    have hstep := senderStep_no_complete cl st e he
    have hrest := ih (senderStep cl st e).1 hes
    simp only [senderRun, List.all_append]
    simp [hstep, hrest]

/-- C6 as amended: on a flush request the shipper drains every cached batch
into the in-flight send set and emits the flush reply in the same step,
without waiting for any send to complete — completions happen only on later
task-completion events, so a run containing no task-completion event emits no
delivery at all; and a record whose batch is not ship-eligible on arrival
leaves the state unchanged (it is discarded, never cached). -/
theorem c6_flush_no_barrier (cl : CacheLimit) (st : SenderState)
    (tr : List SubEvent) (hnd : ∀ e ∈ tr, e ≠ SubEvent.taskDone)
    (level : Level) (data : LogData)
    (hns : cl.should_send level st.cache = false) :
    ((senderRun cl st tr).2.all (fun a => !a.isCompleted)) = true ∧
    (senderStep cl st .flushReq).1.tasks = st.tasks ++ st.cache ∧
    (senderStep cl st .flushReq).2 =
      (st.cache.map (fun p => SubAction.enqueuedSend p.1 p.2)) ++ [.flushReply] ∧
    senderStep cl st (.record level data) = (st, []) := by
  exact ⟨senderRun_no_complete cl st tr hnd, rfl, rfl, by simp [senderStep, hns]⟩

/-- Witness for `c6_flush_no_barrier` at a concrete state and trace. -/
theorem c6_flush_no_barrier_witness :
    (((senderRun CacheLimit.default ⟨exStaleCache, [], 5⟩
        [.record .info exLogData, .flushReq]).2.all
          (fun a => !a.isCompleted)) = true) ∧
    senderStep CacheLimit.default ⟨exStaleCache, [], 5⟩
        (.record .info exLogData) = (⟨exStaleCache, [], 5⟩, []) := by
  have h := c6_flush_no_barrier CacheLimit.default ⟨exStaleCache, [], 5⟩
    [.record .info exLogData, .flushReq] (by decide) .info exLogData (by decide)
  exact ⟨h.1, h.2.2.2⟩

/-! ## C4 — partition detail histogram -/

/-- Histogram lookup on a cons whose key is the looked-up date. -/
lemma histCount_cons_eq (pk pc d : Nat) (rest : List (Nat × Nat)) (h : pk = d) :
    histCount ((pk, pc) :: rest) d = pc := by
  subst h
  simp [histCount, List.find?]

/-- Histogram lookup skips a cons with a different key. -/
lemma histCount_cons_ne (pk pc d : Nat) (rest : List (Nat × Nat)) (h : ¬ pk = d) :
    histCount ((pk, pc) :: rest) d = histCount rest d := by
  simp [histCount, List.find?, show (pk == d) = false from beq_eq_false_iff_ne.mpr h]

/-- Bumping a date increments exactly that date's histogram count. -/
lemma histCount_bumpDate (m : List (Nat × Nat)) (k d : Nat) :
    histCount (bumpDate m k) d = histCount m d + (if k = d then 1 else 0) := by
  induction m with
  | nil =>
    by_cases hkd : k = d
    · simp [bumpDate, histCount_cons_eq k 1 d [] hkd, hkd, histCount]
    · simp [bumpDate, histCount_cons_ne k 1 d [] hkd, hkd, histCount]
  | cons p rest ih =>
    obtain ⟨pk, pc⟩ := p
    by_cases hpk : pk = k
    · subst hpk
      have hb : bumpDate ((pk, pc) :: rest) pk = (pk, pc + 1) :: rest := by
        simp [bumpDate]
      rw [hb]
      by_cases hd : pk = d
      · rw [histCount_cons_eq pk (pc + 1) d rest hd, histCount_cons_eq pk pc d rest hd,
          if_pos hd]
      · rw [histCount_cons_ne pk (pc + 1) d rest hd, histCount_cons_ne pk pc d rest hd,
          if_neg hd]
        omega
    · have hb : bumpDate ((pk, pc) :: rest) k = (pk, pc) :: bumpDate rest k := by
        simp [bumpDate, hpk]
      rw [hb]
      by_cases hpd : pk = d
      · have hkd : ¬ k = d := fun hk => hpk (hpd.trans hk.symm)
        rw [histCount_cons_eq pk pc d _ hpd, histCount_cons_eq pk pc d rest hpd, if_neg hkd]
        omega
      · rw [histCount_cons_ne pk pc d _ hpd, histCount_cons_ne pk pc d rest hpd, ih]

/-- Bumping a date increments the total of the histogram values. -/
lemma sum_bumpDate (m : List (Nat × Nat)) (k : Nat) :
    ((bumpDate m k).map Prod.snd).sum = ((m.map Prod.snd).sum) + 1 := by
  induction m with
  | nil => simp [bumpDate]
  | cons p rest ih =>
    obtain ⟨pk, pc⟩ := p
    by_cases hpk : pk = k
    · subst hpk
      simp [bumpDate]
      ring
    · simp [bumpDate, hpk, ih]
      ring

/-- The histogram fold counts, for every date, the keys falling on it. -/
lemma detailFold_histCount (tree : Tree) (m : List (Nat × Nat)) (d : Nat) :
    histCount (tree.foldl (fun m row => bumpDate m (dateOfMs (timestampOf row.1))) m) d =
      histCount m d + tree.countP (fun row => dateOfMs (timestampOf row.1) == d) := by
  induction tree generalizing m with
  | nil => simp
  | cons row rest ih =>
    simp only [List.foldl_cons, ih, histCount_bumpDate]
    by_cases hd : dateOfMs (timestampOf row.1) = d
    · simp [List.countP_cons, hd]
      omega
    · simp [List.countP_cons, hd]

/-- The histogram fold sums to the number of scanned keys. -/
lemma detailFold_sum (tree : Tree) (m : List (Nat × Nat)) :
    (((tree.foldl (fun m row => bumpDate m (dateOfMs (timestampOf row.1))) m).map
        Prod.snd).sum) = ((m.map Prod.snd).sum) + tree.length := by
  induction tree generalizing m with
  | nil => simp
  | cons row rest ih =>
    simp only [List.foldl_cons, ih, sum_bumpDate, List.length_cons]
    omega

/-- C4: `detail` performs a full scan of the partition — its `rows` field
equals the sum of the histogram values, that sum is the total number of
entries in the tree, and the histogram count of every date `d` is the number
of keys whose embedded timestamp falls on the UTC calendar date `d`. -/
theorem c4_detail_histogram (db : Db) (h : Host) (a : App) (l : Level) :
    (detail db h a l).rows = (((detail db h a l).row_detail.map Prod.snd).sum) ∧
    (detail db h a l).rows = (openTree db (l.getTreeName h a)).length ∧
    ∀ d, histCount (detail db h a l).row_detail d =
      (openTree db (l.getTreeName h a)).countP
        (fun row => dateOfMs (timestampOf row.1) == d) := by
  refine ⟨rfl, ?_, fun d => ?_⟩
  · show (((openTree db (l.getTreeName h a)).foldl
        (fun m row => bumpDate m (dateOfMs (timestampOf row.1))) []).map Prod.snd).sum = _
    rw [detailFold_sum]
    simp
  · show histCount ((openTree db (l.getTreeName h a)).foldl
        (fun m row => bumpDate m (dateOfMs (timestampOf row.1))) []) d = _
    rw [detailFold_histCount]
    simp [histCount]

/-! ## C9 — result cap of the query scan -/

/-- The combined regex filter of the scan loop: keep an entry when
`message_not_matches` (if set) does not match and `message_matches` (if set)
matches. -/
def passesFilters (params : QueryParams) (value : LogData) : Bool :=
  !((params.message_not_matches.map (fun n => n value.message)).getD false) &&
    ((params.message_matches.map (fun m => m value.message)).getD true)

/-- The global `rows` counter after a tree scan counts exactly the emitted
hits. -/
lemma scanTree_rows (params : QueryParams) (t : TreeName) :
    ∀ (items : Tree) (rows : Nat),
      (scanTree params t rows items).2 = rows + (scanTree params t rows items).1.length := by
  intro items
  induction items with
  | nil => intro rows; simp [scanTree]
  | cons kv rest ih =>
    intro rows
    obtain ⟨k, v⟩ := kv
    by_cases hbreak : (match params.max_results with
        | some max_results => decide (max_results < rows)
        | none => false) = true
    · simp [scanTree, hbreak]
    · simp only [scanTree, if_neg hbreak]
      by_cases hn : ((params.message_not_matches.map (fun n => n v.message)).getD false) = true
      · simpa [hn] using ih rows
      · by_cases hmch : ((params.message_matches.map (fun m => m v.message)).getD true) = true
        · have := ih (rows + 1)
          simp only [hn, hmch] at *
          simp [this]
          omega
        · simpa [hn, hmch] using ih rows

/-- With `max_results = some m`, a tree scan never pushes the counter past
`m + 1`. -/
lemma scanTree_bounded (params : QueryParams) (t : TreeName) (m : Nat)
    (hm : params.max_results = some m) :
    ∀ (items : Tree) (rows : Nat), rows ≤ m + 1 →
      (scanTree params t rows items).2 ≤ m + 1 := by
  intro items
  induction items with
  | nil => intro rows h; simpa [scanTree] using h
  | cons kv rest ih =>
    intro rows hrows
    obtain ⟨k, v⟩ := kv
    by_cases hbreak : m < rows
    · simpa [scanTree, hm, hbreak] using hrows
    · have hb : (match params.max_results with
          | some max_results => decide (max_results < rows)
          | none => false) = false := by
        simp [hm, hbreak]
      simp only [scanTree, hb, Bool.false_eq_true, if_false]
      by_cases hn : ((params.message_not_matches.map (fun n => n v.message)).getD false) = true
      · simpa [hn] using ih rows hrows
      · by_cases hmch : ((params.message_matches.map (fun m => m v.message)).getD true) = true
        · have := ih (rows + 1) (by omega)
          simp only [hn, hmch] at *
          simpa using this
        · simpa [hn, hmch] using ih rows hrows

/-- The counter after scanning a list of trees counts the emitted hits. -/
lemma scanTrees_rows (db : Db) (params : QueryParams) (lo hi : Nat) :
    ∀ (trees : List TreeName) (rows : Nat),
      (scanTrees db params lo hi rows trees).2 =
        rows + (scanTrees db params lo hi rows trees).1.length := by
  intro trees
  induction trees with
  | nil => intro rows; simp [scanTrees]
  | cons t ts ih =>
    intro rows
    simp only [scanTrees, List.length_append]
    rw [ih, scanTree_rows]
    omega

/-- With `max_results = some m`, the counter never exceeds `m + 1` across the
whole scan. -/
lemma scanTrees_bounded (db : Db) (params : QueryParams) (lo hi : Nat) (m : Nat)
    (hm : params.max_results = some m) :
    ∀ (trees : List TreeName) (rows : Nat), rows ≤ m + 1 →
      (scanTrees db params lo hi rows trees).2 ≤ m + 1 := by
  intro trees
  induction trees with
  | nil => intro rows h; simpa [scanTrees] using h
  | cons t ts ih =>
    intro rows hrows
    simp only [scanTrees]
    exact ih _ (scanTree_bounded params t m hm _ rows hrows)

/-- With no cap, one tree scan emits exactly the in-range entries that pass
the regex filters. -/
lemma scanTree_unbounded (params : QueryParams) (t : TreeName)
    (hm : params.max_results = none) :
    ∀ (items : Tree) (rows : Nat),
      (scanTree params t rows items).1 =
        items.filterMap (fun kv =>
          if passesFilters params kv.2 then
            some ⟨t.host, t.app, t.level, kv.1, kv.2⟩ else none) := by
  intro items
  induction items with
  | nil => intro rows; simp [scanTree]
  | cons kv rest ih =>
    intro rows
    obtain ⟨k, v⟩ := kv
    simp only [scanTree, hm, Bool.false_eq_true, if_false, List.filterMap_cons]
    by_cases hn : ((params.message_not_matches.map (fun n => n v.message)).getD false) = true
    · simp [hn, passesFilters, ih rows]
    · by_cases hmch : ((params.message_matches.map (fun m => m v.message)).getD true) = true
      · simp [hn, hmch, passesFilters, ih (rows + 1)]
      · simp [hn, hmch, passesFilters, ih rows]

/-- With no cap, the whole scan emits every matching entry of every relevant
tree, in tree order. -/
lemma scanTrees_unbounded (db : Db) (params : QueryParams) (lo hi : Nat)
    (hm : params.max_results = none) :
    ∀ (trees : List TreeName) (rows : Nat),
      (scanTrees db params lo hi rows trees).1 =
        trees.flatMap (fun t =>
          (treeRange (openTree db t.toBytes) lo hi).filterMap (fun kv =>
            if passesFilters params kv.2 then
              some ⟨t.host, t.app, t.level, kv.1, kv.2⟩ else none)) := by
  intro trees
  induction trees with
  | nil => intro rows; simp [scanTrees]
  | cons t ts ih =>
    intro rows
    simp only [scanTrees, List.flatMap_cons]
    rw [scanTree_unbounded params t hm, ih]

/-- C9: with `max_results = some m` the query emits at most
`m + (number of scanned partitions)` hits — the limit check runs before each
entry, so at most one extra hit per partition and in fact at most `m + 1`
overall; with `max_results` unset the query returns exactly the matching
entries of every scanned partition. -/
theorem c9_query_limit (db : Db) (params : QueryParams) (rand : Nat) :
    (∀ m, params.max_results = some m →
      (dbQuery db params rand).length ≤ m + (dbRelevantTrees db params).length) ∧
    (params.max_results = none →
      dbQuery db params rand =
        (dbRelevantTrees db params).flatMap (fun t =>
          (treeRange (openTree db t.toBytes) (dbStartBound params rand)
              (dbEndBound params rand)).filterMap (fun kv =>
            if passesFilters params kv.2 then
              some ⟨t.host, t.app, t.level, kv.1, kv.2⟩ else none))) := by
  constructor
  · intro m hm
    cases htr : dbRelevantTrees db params with
    | nil => simp [dbQuery, htr, scanTrees]
    | cons t ts =>
      have hlen : (dbQuery db params rand).length =
          (scanTrees db params (dbStartBound params rand) (dbEndBound params rand) 0
            (dbRelevantTrees db params)).2 := by
        simp only [dbQuery]
        rw [scanTrees_rows]
        omega
      have hbound := scanTrees_bounded db params (dbStartBound params rand)
        (dbEndBound params rand) m hm (dbRelevantTrees db params) 0 (by omega)
      rw [htr] at hlen hbound
      simp only [List.length_cons]
      omega
  · intro hm
    exact scanTrees_unbounded db params _ _ hm (dbRelevantTrees db params) 0

/-- Query params with only `max_results = 0` set. -/
def exParamsLimit0 : QueryParams :=
  ⟨none, none, none, none, none, none, none, some 0⟩

/-- Witness for `c9_query_limit` at a concrete store and cap. -/
theorem c9_query_limit_witness :
    (dbQuery exQueryDb exParamsLimit0 0).length ≤
      0 + (dbRelevantTrees exQueryDb exParamsLimit0).length :=
  (c9_query_limit exQueryDb exParamsLimit0 0).1 0 rfl

/-! ## C10 — the identity-label invariant -/

/-- C10: every `Host` or `App` produced by string parsing or by
deserialization (which re-parses the string) carries exactly the input
string, which is non-empty and consists only of `[A-Za-z0-9]` characters;
and on any string that fails the anchored regex, every one of those
constructors fails, so no parse or deserialize path yields an invalid
value. -/
theorem c10_identity_invariant (s : List Char) (h : Host) (a : App) :
    (Host.fromStr s = some h →
      h.name = s ∧ hostRegexIsMatch h.name = true ∧
        h.name ≠ [] ∧ ∀ c ∈ h.name, isNameChar c = true) ∧
    (Host.deserialize s = some h →
      h.name = s ∧ hostRegexIsMatch h.name = true) ∧
    (App.fromStr s = some a →
      a.name = s ∧ hostRegexIsMatch a.name = true ∧
        a.name ≠ [] ∧ ∀ c ∈ a.name, isNameChar c = true) ∧
    (App.deserialize s = some a →
      a.name = s ∧ hostRegexIsMatch a.name = true) ∧
    (hostRegexIsMatch s = false →
      Host.fromStr s = none ∧ Host.deserialize s = none ∧
        App.fromStr s = none ∧ App.deserialize s = none) := by
  have hhost : Host.fromStr s = some h →
      h.name = s ∧ hostRegexIsMatch h.name = true ∧
        h.name ≠ [] ∧ ∀ c ∈ h.name, isNameChar c = true := by
    intro hs
    by_cases hv : hostRegexIsMatch s = true
    · have h12 : ¬ s = [] ∧ ∀ c ∈ s, isNameChar c = true := by
        simpa [hostRegexIsMatch, List.all_eq_true] using hv
      have : h = ⟨s⟩ := by
        simpa [Host.fromStr, hv] using hs.symm
      subst this
      exact ⟨rfl, hv, h12.1, h12.2⟩
    · simp [Host.fromStr, hv] at hs
  have happ : App.fromStr s = some a →
      a.name = s ∧ hostRegexIsMatch a.name = true ∧
        a.name ≠ [] ∧ ∀ c ∈ a.name, isNameChar c = true := by
    intro hs
    by_cases hv : hostRegexIsMatch s = true
    · have h12 : ¬ s = [] ∧ ∀ c ∈ s, isNameChar c = true := by
        simpa [hostRegexIsMatch, List.all_eq_true] using hv
      have : a = ⟨s⟩ := by
        simpa [App.fromStr, hv] using hs.symm
      subst this
      exact ⟨rfl, hv, h12.1, h12.2⟩
    · simp [App.fromStr, hv] at hs
  refine ⟨hhost, fun hs => ?_, happ, fun hs => ?_, fun hbad => ?_⟩
  · have := hhost hs
    exact ⟨this.1, this.2.1⟩
  · have := happ hs
    exact ⟨this.1, this.2.1⟩
  · have hv : ¬ hostRegexIsMatch s = true := by simp [hbad]
    exact ⟨by simp [Host.fromStr, hv], by simp [Host.deserialize, Host.fromStr, hv],
      by simp [App.fromStr, hv], by simp [App.deserialize, App.fromStr, hv]⟩

/-- Witness for `c10_identity_invariant`: the valid name `abc123` parses to
itself and the invalid name `abc-123` is rejected everywhere. -/
theorem c10_identity_invariant_witness :
    (⟨"abc123".toList⟩ : Host).name = "abc123".toList ∧
    Host.fromStr ("abc-123".toList) = none := by
  have h1 := (c10_identity_invariant "abc123".toList ⟨"abc123".toList⟩
    ⟨"abc123".toList⟩).1 (by decide)
  have h2 := (c10_identity_invariant "abc-123".toList ⟨"abc-123".toList⟩
    ⟨"abc-123".toList⟩).2.2.2.2 (by decide)
  exact ⟨h1.1, h2.1⟩

/-! ## C8 — floor and ceiling of IDs -/

/-- `to_be_bytes` written out: byte `i` is `u / 2 ^ (8 * (15 - i)) % 256`. -/
lemma toBeBytes_eq (u : Nat) :
    toBeBytes u = [u / 2 ^ 120 % 256, u / 2 ^ 112 % 256, u / 2 ^ 104 % 256,
      u / 2 ^ 96 % 256, u / 2 ^ 88 % 256, u / 2 ^ 80 % 256,
      u / 2 ^ 72 % 256, u / 2 ^ 64 % 256, u / 2 ^ 56 % 256,
      u / 2 ^ 48 % 256, u / 2 ^ 40 % 256, u / 2 ^ 32 % 256,
      u / 2 ^ 24 % 256, u / 2 ^ 16 % 256, u / 2 ^ 8 % 256,
      u / 2 ^ 0 % 256] := by
  rfl

/-- Peeling one byte off a big-endian accumulator. -/
lemma div_step (x k : Nat) :
    x / 2 ^ (k + 8) * 256 + x / 2 ^ k % 256 = x / 2 ^ k := by
  have h1 : (2 : Nat) ^ (k + 8) = 2 ^ k * 256 := by rw [pow_add]; norm_num
  rw [h1, ← Nat.div_div_eq_div_mul]
  omega

/-- `ulid_floor` clears the low 80 bits. -/
lemma ulid_floor_eq (u : Nat) (hu : u < 2 ^ 128) :
    ulid_floor u = u / 2 ^ 80 * 2 ^ 80 := by
  have h120 : u / 2 ^ 120 % 256 = u / 2 ^ 120 := by
    apply Nat.mod_eq_of_lt
    apply Nat.div_lt_of_lt_mul
    calc u < 2 ^ 128 := hu
    _ = 2 ^ 120 * 256 := by norm_num
  show fromBeBytes (setLowBytes 0 (toBeBytes u)) = u / 2 ^ 80 * 2 ^ 80
  rw [toBeBytes_eq]
  show (((((((((((((((0 * 256 + u / 2 ^ 120 % 256) * 256 + u / 2 ^ 112 % 256) * 256 +
    u / 2 ^ 104 % 256) * 256 + u / 2 ^ 96 % 256) * 256 + u / 2 ^ 88 % 256) * 256 +
    u / 2 ^ 80 % 256) * 256 + 0) * 256 + 0) * 256 + 0) * 256 + 0) * 256 + 0) * 256 + 0) *
    256 + 0) * 256 + 0) * 256 + 0) * 256 + 0 = u / 2 ^ 80 * 2 ^ 80
  rw [Nat.zero_mul, Nat.zero_add, h120, div_step u 112, div_step u 104, div_step u 96,
    div_step u 88, div_step u 80]
  ring_nf

/-- `ulid_ceiling` saturates the low 80 bits. -/
lemma ulid_ceiling_eq (u : Nat) (hu : u < 2 ^ 128) :
    ulid_ceiling u = u / 2 ^ 80 * 2 ^ 80 + (2 ^ 80 - 1) := by
  have h120 : u / 2 ^ 120 % 256 = u / 2 ^ 120 := by
    apply Nat.mod_eq_of_lt
    apply Nat.div_lt_of_lt_mul
    calc u < 2 ^ 128 := hu
    _ = 2 ^ 120 * 256 := by norm_num
  show fromBeBytes (setLowBytes 255 (toBeBytes u)) = u / 2 ^ 80 * 2 ^ 80 + (2 ^ 80 - 1)
  rw [toBeBytes_eq]
  show (((((((((((((((0 * 256 + u / 2 ^ 120 % 256) * 256 + u / 2 ^ 112 % 256) * 256 +
    u / 2 ^ 104 % 256) * 256 + u / 2 ^ 96 % 256) * 256 + u / 2 ^ 88 % 256) * 256 +
    u / 2 ^ 80 % 256) * 256 + 255) * 256 + 255) * 256 + 255) * 256 + 255) * 256 + 255) *
    256 + 255) * 256 + 255) * 256 + 255) * 256 + 255) * 256 + 255 =
    u / 2 ^ 80 * 2 ^ 80 + (2 ^ 80 - 1)
  rw [Nat.zero_mul, Nat.zero_add, h120, div_step u 112, div_step u 104, div_step u 96,
    div_step u 88, div_step u 80]
  omega

/-- C8: `ulid_floor` preserves the top 6 bytes of the 16-byte big-endian form
and zeroes the low 10 bytes, `ulid_ceiling` preserves the top 6 bytes and
sets the low 10 bytes to 0xFF; consequently, under big-endian `u128` order
(equivalently byte-lexicographic order on the 16-byte keys), every ID whose
embedded millisecond timestamp is `t` lies between
`ulid_floor (from_datetime t)` and `ulid_ceiling (from_datetime t)`,
whatever random suffix `from_datetime` drew. -/
theorem c8_floor_ceiling_bounds (u : Nat) (hu : u < 2 ^ 128) (idv t r : Nat)
    (hid : idv < 2 ^ 128) (hts : timestampOf idv = t) :
    (toBeBytes (ulid_floor u)).take 6 = (toBeBytes u).take 6 ∧
    (toBeBytes (ulid_floor u)).drop 6 = List.replicate 10 0 ∧
    (toBeBytes (ulid_ceiling u)).take 6 = (toBeBytes u).take 6 ∧
    (toBeBytes (ulid_ceiling u)).drop 6 = List.replicate 10 255 ∧
    ulid_floor (from_datetime t r) ≤ idv ∧
    idv ≤ ulid_ceiling (from_datetime t r) := by
  have hfd : from_datetime t r < 2 ^ 128 := by
    have h1 : t % 2 ^ 48 * 2 ^ 80 ≤ (2 ^ 48 - 1) * 2 ^ 80 :=
      Nat.mul_le_mul_right _ (by omega)
    have h2 : r % 2 ^ 80 < 2 ^ 80 := Nat.mod_lt _ (by norm_num)
    unfold from_datetime
    omega
  have ht48 : t < 2 ^ 48 := by
    rw [← hts]
    unfold timestampOf
    omega
  have hmod : t % 2 ^ 48 = t := Nat.mod_eq_of_lt ht48
  have h2 : r % 2 ^ 80 < 2 ^ 80 := Nat.mod_lt _ (by norm_num)
  have hfl : ulid_floor (from_datetime t r) = t * 2 ^ 80 := by
    rw [ulid_floor_eq _ hfd]
    unfold from_datetime
    rw [hmod]
    omega
  have hcl : ulid_ceiling (from_datetime t r) = t * 2 ^ 80 + (2 ^ 80 - 1) := by
    rw [ulid_ceiling_eq _ hfd]
    unfold from_datetime
    rw [hmod]
    omega
  refine ⟨?_, ?_, ?_, ?_, ?_, ?_⟩
  · rw [ulid_floor_eq u hu, toBeBytes_eq, toBeBytes_eq]
    show [(u / 2 ^ 80 * 2 ^ 80) / 2 ^ 120 % 256, (u / 2 ^ 80 * 2 ^ 80) / 2 ^ 112 % 256, (u / 2 ^ 80 * 2 ^ 80) / 2 ^ 104 % 256,
      (u / 2 ^ 80 * 2 ^ 80) / 2 ^ 96 % 256, (u / 2 ^ 80 * 2 ^ 80) / 2 ^ 88 % 256, (u / 2 ^ 80 * 2 ^ 80) / 2 ^ 80 % 256] =
      [u / 2 ^ 120 % 256, u / 2 ^ 112 % 256, u / 2 ^ 104 % 256,
      u / 2 ^ 96 % 256, u / 2 ^ 88 % 256, u / 2 ^ 80 % 256]
    simp only [List.cons.injEq, and_true]
    omega
  · rw [ulid_floor_eq u hu, toBeBytes_eq]
    show [(u / 2 ^ 80 * 2 ^ 80) / 2 ^ 72 % 256, (u / 2 ^ 80 * 2 ^ 80) / 2 ^ 64 % 256, (u / 2 ^ 80 * 2 ^ 80) / 2 ^ 56 % 256,
      (u / 2 ^ 80 * 2 ^ 80) / 2 ^ 48 % 256, (u / 2 ^ 80 * 2 ^ 80) / 2 ^ 40 % 256, (u / 2 ^ 80 * 2 ^ 80) / 2 ^ 32 % 256,
      (u / 2 ^ 80 * 2 ^ 80) / 2 ^ 24 % 256, (u / 2 ^ 80 * 2 ^ 80) / 2 ^ 16 % 256, (u / 2 ^ 80 * 2 ^ 80) / 2 ^ 8 % 256,
      (u / 2 ^ 80 * 2 ^ 80) / 2 ^ 0 % 256] =
      List.replicate 10 0
    show [(u / 2 ^ 80 * 2 ^ 80) / 2 ^ 72 % 256, (u / 2 ^ 80 * 2 ^ 80) / 2 ^ 64 % 256, (u / 2 ^ 80 * 2 ^ 80) / 2 ^ 56 % 256,
      (u / 2 ^ 80 * 2 ^ 80) / 2 ^ 48 % 256, (u / 2 ^ 80 * 2 ^ 80) / 2 ^ 40 % 256, (u / 2 ^ 80 * 2 ^ 80) / 2 ^ 32 % 256,
      (u / 2 ^ 80 * 2 ^ 80) / 2 ^ 24 % 256, (u / 2 ^ 80 * 2 ^ 80) / 2 ^ 16 % 256, (u / 2 ^ 80 * 2 ^ 80) / 2 ^ 8 % 256,
      (u / 2 ^ 80 * 2 ^ 80) / 2 ^ 0 % 256] =
      [0, 0, 0, 0, 0, 0, 0, 0, 0, 0]
    simp only [List.cons.injEq, and_true]
    omega
  · rw [ulid_ceiling_eq u hu, toBeBytes_eq, toBeBytes_eq]
    show [(u / 2 ^ 80 * 2 ^ 80 + (2 ^ 80 - 1)) / 2 ^ 120 % 256, (u / 2 ^ 80 * 2 ^ 80 + (2 ^ 80 - 1)) / 2 ^ 112 % 256, (u / 2 ^ 80 * 2 ^ 80 + (2 ^ 80 - 1)) / 2 ^ 104 % 256,
      (u / 2 ^ 80 * 2 ^ 80 + (2 ^ 80 - 1)) / 2 ^ 96 % 256, (u / 2 ^ 80 * 2 ^ 80 + (2 ^ 80 - 1)) / 2 ^ 88 % 256, (u / 2 ^ 80 * 2 ^ 80 + (2 ^ 80 - 1)) / 2 ^ 80 % 256] =
      [u / 2 ^ 120 % 256, u / 2 ^ 112 % 256, u / 2 ^ 104 % 256,
      u / 2 ^ 96 % 256, u / 2 ^ 88 % 256, u / 2 ^ 80 % 256]
    simp only [List.cons.injEq, and_true]
    omega
  · rw [ulid_ceiling_eq u hu, toBeBytes_eq]
    show [(u / 2 ^ 80 * 2 ^ 80 + (2 ^ 80 - 1)) / 2 ^ 72 % 256, (u / 2 ^ 80 * 2 ^ 80 + (2 ^ 80 - 1)) / 2 ^ 64 % 256, (u / 2 ^ 80 * 2 ^ 80 + (2 ^ 80 - 1)) / 2 ^ 56 % 256,
      (u / 2 ^ 80 * 2 ^ 80 + (2 ^ 80 - 1)) / 2 ^ 48 % 256, (u / 2 ^ 80 * 2 ^ 80 + (2 ^ 80 - 1)) / 2 ^ 40 % 256, (u / 2 ^ 80 * 2 ^ 80 + (2 ^ 80 - 1)) / 2 ^ 32 % 256,
      (u / 2 ^ 80 * 2 ^ 80 + (2 ^ 80 - 1)) / 2 ^ 24 % 256, (u / 2 ^ 80 * 2 ^ 80 + (2 ^ 80 - 1)) / 2 ^ 16 % 256, (u / 2 ^ 80 * 2 ^ 80 + (2 ^ 80 - 1)) / 2 ^ 8 % 256,
      (u / 2 ^ 80 * 2 ^ 80 + (2 ^ 80 - 1)) / 2 ^ 0 % 256] =
      List.replicate 10 255
    show [(u / 2 ^ 80 * 2 ^ 80 + (2 ^ 80 - 1)) / 2 ^ 72 % 256, (u / 2 ^ 80 * 2 ^ 80 + (2 ^ 80 - 1)) / 2 ^ 64 % 256, (u / 2 ^ 80 * 2 ^ 80 + (2 ^ 80 - 1)) / 2 ^ 56 % 256,
      (u / 2 ^ 80 * 2 ^ 80 + (2 ^ 80 - 1)) / 2 ^ 48 % 256, (u / 2 ^ 80 * 2 ^ 80 + (2 ^ 80 - 1)) / 2 ^ 40 % 256, (u / 2 ^ 80 * 2 ^ 80 + (2 ^ 80 - 1)) / 2 ^ 32 % 256,
      (u / 2 ^ 80 * 2 ^ 80 + (2 ^ 80 - 1)) / 2 ^ 24 % 256, (u / 2 ^ 80 * 2 ^ 80 + (2 ^ 80 - 1)) / 2 ^ 16 % 256, (u / 2 ^ 80 * 2 ^ 80 + (2 ^ 80 - 1)) / 2 ^ 8 % 256,
      (u / 2 ^ 80 * 2 ^ 80 + (2 ^ 80 - 1)) / 2 ^ 0 % 256] =
      [255, 255, 255, 255, 255, 255, 255, 255, 255, 255]
    simp only [List.cons.injEq, and_true]
    omega
  · rw [hfl, ← hts]
    unfold timestampOf
    exact Nat.div_mul_le_self idv (2 ^ 80)
  · rw [hcl, ← hts]
    unfold timestampOf
    omega

/-- Witness for `c8_floor_ceiling_bounds`: the ID `3 * 2 ^ 80 + 7` has
timestamp 3 and lies inside the key range derived from timestamp 3. -/
theorem c8_floor_ceiling_bounds_witness :
    ulid_floor (from_datetime 3 9) ≤ 3 * 2 ^ 80 + 7 ∧
    3 * 2 ^ 80 + 7 ≤ ulid_ceiling (from_datetime 3 9) := by
  have h := c8_floor_ceiling_bounds 5 (by norm_num) (3 * 2 ^ 80 + 7) 3 9
    (by norm_num) (by decide)
  exact ⟨h.2.2.2.2.1, h.2.2.2.2.2⟩

/-! ## C7 — partition-name round trip -/

/-- `dashIndices` with the enumeration starting at `n`. -/
def dashFrom (n : Nat) (l : List Char) : List Nat :=
  ((List.enumFrom n l).filter (fun p => p.2 == '-')).map Prod.fst

lemma dashIndices_eq_dashFrom (l : List Char) : dashIndices l = dashFrom 0 l := rfl

lemma dashFrom_cons (n : Nat) (c : Char) (l : List Char) :
    dashFrom n (c :: l) =
      if (c == '-') = true then n :: dashFrom (n + 1) l else dashFrom (n + 1) l := by
  by_cases h : (c == '-') = true
  · simp [dashFrom, List.enumFrom, List.filter_cons, h]
  · simp [dashFrom, List.enumFrom, List.filter_cons, h]

lemma dashFrom_append (n : Nat) (l₁ l₂ : List Char) :
    dashFrom n (l₁ ++ l₂) = dashFrom n l₁ ++ dashFrom (n + l₁.length) l₂ := by
  induction l₁ generalizing n with
  | nil => simp [dashFrom]
  | cons c cs ih =>
    rw [List.cons_append, dashFrom_cons, dashFrom_cons, ih (n + 1)]
    rw [show n + 1 + cs.length = n + (c :: cs).length from by simp; omega]
    by_cases h : (c == '-') = true
    · rw [if_pos h, if_pos h, List.cons_append]
    · rw [if_neg h, if_neg h]

lemma dashFrom_no_dash (n : Nat) (l : List Char) (h : ∀ c ∈ l, ¬ c = '-') :
    dashFrom n l = [] := by
  induction l generalizing n with
  | nil => rfl
  | cons c cs ih =>
    rw [dashFrom_cons]
    have hc : ¬ (c == '-') = true := by
      simpa using h c (List.mem_cons_self c cs)
    rw [if_neg hc]
    exact ih (n + 1) (fun x hx => h x (List.mem_cons_of_mem c hx))

lemma valid_no_dash (s : List Char) (h : hostRegexIsMatch s = true) :
    ∀ c ∈ s, ¬ c = '-' := by
  have h2 : ¬ s = [] ∧ ∀ c ∈ s, isNameChar c = true := by
    simpa [hostRegexIsMatch, List.all_eq_true] using h
  intro c hc heq
  subst heq
  exact absurd (h2.2 _ hc) (by decide)

lemma display_no_dash (l : Level) : ∀ c ∈ l.display, ¬ c = '-' := by
  cases l <;> decide

/-- The tree name in right-nested form. -/
lemma getTreeName_eq (l : Level) (h : Host) (a : App) :
    l.getTreeName h a = h.name ++ '-' :: (a.name ++ '-' :: l.display) := by
  unfold Level.getTreeName
  rw [List.append_assoc, List.cons_append]

lemma dashIndices_name (hn an : List Char) (l : Level)
    (hh : ∀ c ∈ hn, ¬ c = '-') (ha : ∀ c ∈ an, ¬ c = '-') :
    dashIndices (hn ++ '-' :: (an ++ '-' :: l.display)) =
      [hn.length, hn.length + 1 + an.length] := by
  rw [dashIndices_eq_dashFrom, dashFrom_append, dashFrom_no_dash 0 hn hh,
    dashFrom_cons, if_pos (by decide), dashFrom_append, dashFrom_no_dash _ an ha,
    dashFrom_cons, if_pos (by decide), dashFrom_no_dash _ _ (display_no_dash l)]
  simp

lemma take_len_append {α : Type} (l₁ l₂ : List α) : (l₁ ++ l₂).take l₁.length = l₁ := by
  induction l₁ with
  | nil => rfl
  | cons x xs ih =>
    show x :: (xs ++ l₂).take xs.length = x :: xs
    rw [ih]

lemma drop_len_cons_append {α : Type} (l₁ : List α) (c : α) (l₂ : List α) :
    (l₁ ++ c :: l₂).drop (l₁.length + 1) = l₂ := by
  induction l₁ with
  | nil => rfl
  | cons x xs ih => exact ih

lemma fromStr_display (l : Level) : Level.fromStr l.display = some l := by
  cases l <;> decide

lemma fromBytes_name (hn an : List Char) (l : Level)
    (hh : hostRegexIsMatch hn = true) (ha : hostRegexIsMatch an = true) :
    TreeName.fromBytes (l.getTreeName ⟨hn⟩ ⟨an⟩) = some ⟨⟨hn⟩, ⟨an⟩, l⟩ := by
  have hh' := valid_no_dash hn hh
  have ha' := valid_no_dash an ha
  have hseg1 : (hn ++ '-' :: (an ++ '-' :: l.display)).take hn.length = hn :=
    take_len_append hn _
  have hdrop1 : (hn ++ '-' :: (an ++ '-' :: l.display)).drop (hn.length + 1) =
      an ++ '-' :: l.display := drop_len_cons_append hn _ _
  have hseg2 : ((hn ++ '-' :: (an ++ '-' :: l.display)).drop (hn.length + 1)).take
      (hn.length + 1 + an.length - (hn.length + 1)) = an := by
    rw [hdrop1, show hn.length + 1 + an.length - (hn.length + 1) = an.length from by omega]
    exact take_len_append an _
  have hseg3 : (hn ++ '-' :: (an ++ '-' :: l.display)).drop
      (hn.length + 1 + an.length + 1) = l.display := by
    have hsplit : (hn ++ '-' :: (an ++ '-' :: l.display)).drop
        (hn.length + 1 + an.length + 1) =
        (((hn ++ '-' :: (an ++ '-' :: l.display)).drop (hn.length + 1)).drop
          (an.length + 1)) := by
      rw [List.drop_drop]
      congr 1
    rw [hsplit, hdrop1]
    exact drop_len_cons_append an _ _
  rw [getTreeName_eq]
  unfold TreeName.fromBytes
  rw [dashIndices_name hn an l hh' ha']
  simp only [hseg1, hseg2, hseg3]
  simp [Host.fromStr, App.fromStr, hh, ha, fromStr_display]

lemma fromBytes_none_iff (bs : List Char) :
    TreeName.fromBytes bs = none ↔
      ((dashIndices bs).length ≠ 2 ∨
       ∃ i j, dashIndices bs = [i, j] ∧
         (Host.fromStr (bs.take i) = none ∨
          App.fromStr ((bs.drop (i + 1)).take (j - (i + 1))) = none ∨
          Level.fromStr (bs.drop (j + 1)) = none)) := by
  unfold TreeName.fromBytes
  cases hd : dashIndices bs with
  | nil => simp [hd]
  | cons i tl =>
    cases tl with
    | nil => simp [hd]
    | cons j tl2 =>
      cases tl2 with
      | nil =>
        rcases hH : Host.fromStr (bs.take i) with _ | host
        · simp [hd, hH]
          exact ⟨i, j, ⟨rfl, rfl⟩, Or.inl hH⟩
        · rcases hA : App.fromStr ((bs.drop (i + 1)).take (j - (i + 1))) with _ | app
          · simp [hd, hH, hA]
            exact ⟨i, j, ⟨rfl, rfl⟩, Or.inr (Or.inl hA)⟩
          · rcases hL : Level.fromStr (bs.drop (j + 1)) with _ | lv
            · simp [hd, hH, hA, hL]
              exact ⟨i, j, ⟨rfl, rfl⟩, Or.inr (Or.inr hL)⟩
            · simp [hd, hH, hA, hL]
      | cons k tl3 => simp [hd]

/-- C7: for every valid triple of host, app and severity, serializing the
partition name as `{host}-{app}-{severity-lowercase}` and parsing it back
yields exactly the triple; and parsing fails precisely on the byte sequences
that do not contain exactly two dash separators or whose three segments fail
their own parsers. -/
theorem c7_tree_name_roundtrip (hn an : List Char) (l : Level)
    (hh : hostRegexIsMatch hn = true) (ha : hostRegexIsMatch an = true)
    (bs : List Char) :
    TreeName.fromBytes (l.getTreeName ⟨hn⟩ ⟨an⟩) = some ⟨⟨hn⟩, ⟨an⟩, l⟩ ∧
    (TreeName.fromBytes bs = none ↔
      ((dashIndices bs).length ≠ 2 ∨
       ∃ i j, dashIndices bs = [i, j] ∧
         (Host.fromStr (bs.take i) = none ∨
          App.fromStr ((bs.drop (i + 1)).take (j - (i + 1))) = none ∨
          Level.fromStr (bs.drop (j + 1)) = none))) :=
  ⟨fromBytes_name hn an l hh ha, fromBytes_none_iff bs⟩

/-- Witness for `c7_tree_name_roundtrip`: `myhost-app1-warn` round-trips, and
`nodash` fails to parse. -/
theorem c7_tree_name_roundtrip_witness :
    TreeName.fromBytes (Level.warn.getTreeName ⟨"myhost".toList⟩ ⟨"app1".toList⟩) =
      some ⟨⟨"myhost".toList⟩, ⟨"app1".toList⟩, .warn⟩ ∧
    TreeName.fromBytes ("nodash".toList) = none := by
  have h := c7_tree_name_roundtrip ("myhost".toList) ("app1".toList) .warn
    (by decide) (by decide) ("nodash".toList)
  exact ⟨h.1, h.2.mpr (Or.inl (by decide))⟩

end Eigenlog
